import Mathlib

/-!
Shallow embedding of the `libparse` parser-combinator library and its CSV
grammar.  The Rust input type `&str` is modelled as `List Char`; consuming a
prefix of a string slice becomes taking the tail of the list, and the
"suffix of the original input" relation becomes `List.IsSuffix`.  Owned
`String` outputs are likewise modelled as `List Char`, so `collect` on an
iterator of chars is the identity.
-/

namespace Libparse

/-- Model of `Reason` from base.rs: describes a hard-failure reason. -/
inductive Reason where
  | SystemFailure : Reason
  | InvalidInput (expected : String) : Reason
deriving DecidableEq, Repr

/-- Model of `ErrorCode` from base.rs: indicates where parsing failed. -/
inductive ErrorCode where
  | Failure (r : Reason) : ErrorCode
  | NoInput : ErrorCode
  | Char (c : Char) : ErrorCode
  | LineBreak : ErrorCode
  | Predicate : ErrorCode
deriving DecidableEq, Repr

/-- Model of `Error<I>` from base.rs, with `I` fixed to the string-slice model. -/
structure Error where
  input : List Char
  code : ErrorCode
deriving DecidableEq, Repr

/-- Test for `ErrorCode::Failure(_)`, the discriminant used by `is_failure`. -/
def ErrorCode.isFailure : ErrorCode → Bool
  | .Failure _ => true
  | _ => false

/-- Model of `Error::is_failure` from base.rs. -/
def Error.isFailure (e : Error) : Bool := e.code.isFailure

/-- Model of `PResult<I, O>` from base.rs: remaining input and output, or an error. -/
abbrev PResult (O : Type) := Except Error (List Char × O)

/-- A parser is a function from input to `PResult` (base.rs blanket impl). -/
abbrev ParserM (O : Type) := List Char → PResult O

/-- The `Map` combinator from base.rs: applies a function to the output. -/
def pmap (p : ParserM O1) (f : O1 → O2) : ParserM O2 := fun input =>
  match p input with
  | .error e => .error e
  | .ok (next_input, result) => .ok (next_input, f result)

/-- The `AndThenMap` combinator from base.rs: monadic bind. -/
def and_then_map (p : ParserM O1) (f : O1 → ParserM O2) : ParserM O2 := fun input =>
  match p input with
  | .ok (next_input, result) => f result next_input
  | .error e => .error e

/-- The `Fallback` combinator from base.rs: `primary.parse(input).or_else(|err|
fallback.parse(err.input))`.  Note that the Rust code runs the fallback on
every error (it does not test `is_failure`), and from `err.input`. -/
def fallback_on (primary fallback : ParserM O) : ParserM O := fun input =>
  match primary input with
  | .ok r => .ok r
  | .error err => fallback err.input

/-- The `Predicate` combinator with `assume_invalid = false` (`iff` in base.rs). -/
def iff (p : ParserM O) (pred : O → Bool) : ParserM O := fun input =>
  match p input with
  | .error e => .error e
  | .ok (next_input, result) =>
    if pred result then .ok (next_input, result)
    else .error ⟨input, .Predicate⟩

/-- The `Predicate` combinator with `assume_invalid = true` (`iff_or_invalid`). -/
def iff_or_invalid (p : ParserM O) (pred : O → Bool) : ParserM O := fun input =>
  match p input with
  | .error e => .error e
  | .ok (next_input, result) =>
    if pred result then .ok (next_input, result)
    else .error ⟨input, .Failure (.InvalidInput "unknown")⟩

/-- Model of `pair` from combinators.rs: sequences two parsers; an error of the right
parser is re-wrapped with `pair`'s original input. -/
def pair (p1 : ParserM O1) (p2 : ParserM O2) : ParserM (O1 × O2) := fun input =>
  match p1 input with
  | .error e => .error e
  | .ok (next_input, left) =>
    match p2 next_input with
    | .error err => .error ⟨input, err.code⟩
    | .ok (rem_input, right) => .ok (rem_input, (left, right))

/-- Model of `left_from_pair` from combinators.rs. -/
def left_from_pair (p1 : ParserM O1) (p2 : ParserM O2) : ParserM O1 :=
  pmap (pair p1 p2) (fun lr => lr.1)

/-- Model of `right_from_pair` from combinators.rs. -/
def right_from_pair (p1 : ParserM O1) (p2 : ParserM O2) : ParserM O2 :=
  pmap (pair p1 p2) (fun lr => lr.2)

/-- The loop body of `zero_or_more` from combinators.rs, made total with a
fuel argument: `none` models a run of the Rust loop that has not yet reached
its terminating error within `fuel` iterations (i.e. potential divergence).
On the terminating error the loop yields the error itself when it is a hard
failure, and otherwise succeeds with the collected outputs and the error's
input as the remainder. -/
def zero_or_more_fuel (p : ParserM O) : Nat → List Char → Option (PResult (List O))
  | 0, _ => none
  | fuel + 1, input =>
    match p input with
    | .error err =>
      if err.isFailure then some (.error err) else some (.ok (err.input, []))
    | .ok (next_input, out) =>
      match zero_or_more_fuel p fuel next_input with
      | none => none
      | some (.error err) => some (.error err)
      | some (.ok (rem_input, outs)) => some (.ok (rem_input, out :: outs))

/-- Model of `zero_or_more` from combinators.rs.  A budget of `input.length + 1`
iterations is always sufficient when the inner parser consumes at least one
character on every success (proved below as fuel sufficiency); the default
branch is unreachable for such parsers and stands for divergence of the Rust
loop. -/
def zero_or_more (p : ParserM O) : ParserM (List O) := fun input =>
  match zero_or_more_fuel p (input.length + 1) input with
  | some r => r
  | none => .error ⟨input, .Failure .SystemFailure⟩

/-- Model of `END_OF_STRING` from chars.rs. -/
def END_OF_STRING : ErrorCode := .Char '\x00'

/-- Model of `char` from chars.rs: recognizes a single given character. -/
def char (ch : Char) : ParserM Char := fun input =>
  match input with
  | [] => .error ⟨input, END_OF_STRING⟩
  | c :: rest =>
    if c = ch then .ok (rest, ch) else .error ⟨input, .Char ch⟩

/-- Model of `any_char` from chars.rs: consumes any single character. -/
def any_char : ParserM Char := fun input =>
  match input with
  | [] => .error ⟨input, END_OF_STRING⟩
  | c :: rest => .ok (rest, c)

/-- Model of `line_break` from chars.rs: LF first, then CRLF, else a `LineBreak`
error. -/
def line_break : ParserM (List Char) := fun input =>
  match input with
  | '\n' :: rest => .ok (rest, ['\n'])
  | '\r' :: '\n' :: rest => .ok (rest, ['\r', '\n'])
  | _ => .error ⟨input, .LineBreak⟩

/-- Model of `comma` from csv.rs. -/
def comma : ParserM Char := char ','

/-- Model of `dquote` from csv.rs. -/
def dquote : ParserM Char := char '"'

/-- Model of `is_special` from csv.rs. -/
def is_special (ch : Char) : Bool :=
  ch = ',' || ch = '"' || ch = '\r' || ch = '\n'

/-- The inner parser of `non_escaped`: `any_char.iff(|ch| !is_special(*ch))`
from csv.rs, named so that lemmas can refer to it. -/
def nesc_inner : ParserM Char := iff any_char (fun ch => !is_special ch)

/-- Model of `non_escaped` from csv.rs (the `collect` into a `String` is the identity
in the `List Char` model). -/
def non_escaped : ParserM (List Char) :=
  pmap (zero_or_more nesc_inner) (fun chars => chars)

/-- The repeated inner parser of `escaped`:
`any_char.iff(|ch| *ch != '"').fallback_on(left_from_pair(dquote, dquote))`
from csv.rs, named so that lemmas can refer to it. -/
def esc_inner : ParserM Char :=
  fallback_on (iff any_char (fun ch => ch != '"')) (left_from_pair dquote dquote)

/-- Model of `escaped` from csv.rs. -/
def escaped : ParserM (List Char) :=
  pmap
    (right_from_pair dquote
      (left_from_pair (zero_or_more esc_inner) dquote))
    (fun chars => chars)

/-- Model of `field` from csv.rs. -/
def field : ParserM (List Char) := fallback_on escaped non_escaped

/-- Model of `CsvRecord` from csv.rs: a list of field strings. -/
abbrev CsvRecord := List (List Char)

/-- Model of `record` from csv.rs: at least one field, then `(comma field)*`;
the empty input is rejected with `NoInput`. -/
def record : ParserM CsvRecord := fun input =>
  if input.length > 0 then
    match field input with
    | .error e => .error e
    | .ok (next_input, first_field) =>
      match zero_or_more (right_from_pair comma field) next_input with
      | .error e => .error e
      | .ok (rem_input, other_fields) => .ok (rem_input, first_field :: other_fields)
  else
    .error ⟨input, .NoInput⟩

/-- The record-sequence phase of `parse_string` from csv.rs: first record,
then zero or more `line_break record` pairs where each later record must have
the first record's field count, with any `InvalidInput` failure re-labelled
"more fields in this record". -/
def parse_string_records : ParserM (List CsvRecord) := fun input =>
  match and_then_map record (fun first_record =>
      pmap
        (zero_or_more (right_from_pair line_break
          (iff_or_invalid record (fun r => r.length == first_record.length))))
        (fun other_records => first_record :: other_records)) input with
  | .error ⟨einput, .Failure (.InvalidInput _)⟩ =>
    .error ⟨einput, .Failure (.InvalidInput "more fields in this record")⟩
  | r => r

/-- Model of `parse_string` from csv.rs: the record phase followed by the handling of
an optional single trailing line break. -/
def parse_string : ParserM (List CsvRecord) := fun input =>
  match parse_string_records input with
  | .error e => .error e
  | .ok (trailing, records) =>
    if trailing.length > 0 then
      match line_break trailing with
      | .ok ([], _) => .ok ([], records)
      | .error ⟨[], .LineBreak⟩ => .ok ([], records)
      | _ => .error ⟨trailing, .Failure (.InvalidInput "comma or a line break")⟩
    else
      .ok ([], records)

/-- Trace of the `zero_or_more` loop: `Runs p input outs err` holds when
repeatedly applying `p` from `input` succeeds `outs.length` times, yielding
the outputs `outs` in order, and then fails with the error `err`. -/
inductive Runs (p : ParserM O) : List Char → List O → Error → Prop where
  | stop {input : List Char} {err : Error} :
      p input = .error err → Runs p input [] err
  | step {input next : List Char} {o : O} {outs : List O} {err : Error} :
      p input = .ok (next, o) → Runs p next outs err → Runs p input (o :: outs) err

/-- The closure of the primitive parsers under the combinators of the
library: exactly the parsers "built from the primitives and combinators". -/
inductive Built : (O : Type) → ParserM O → Prop where
  | charB (ch : Char) : Built Char (char ch)
  | anyCharB : Built Char any_char
  | lineBreakB : Built (List Char) line_break
  | pmapB {O1 O2 : Type} {p : ParserM O1} (f : O1 → O2) :
      Built O1 p → Built O2 (pmap p f)
  | andThenMapB {O1 O2 : Type} {p : ParserM O1} {f : O1 → ParserM O2} :
      Built O1 p → (∀ o, Built O2 (f o)) → Built O2 (and_then_map p f)
  | fallbackB {O : Type} {p q : ParserM O} :
      Built O p → Built O q → Built O (fallback_on p q)
  | iffB {O : Type} {p : ParserM O} (pred : O → Bool) :
      Built O p → Built O (iff p pred)
  | iffOrInvalidB {O : Type} {p : ParserM O} (pred : O → Bool) :
      Built O p → Built O (iff_or_invalid p pred)
  | pairB {O1 O2 : Type} {p : ParserM O1} {q : ParserM O2} :
      Built O1 p → Built O2 q → Built (O1 × O2) (pair p q)
  | zeroOrMoreB {O : Type} {p : ParserM O} :
      Built O p → Built (List O) (zero_or_more p)

/-- The input-consumption contract: on success the remaining input is a
suffix of the input passed in, and on failure the error's `input` field is a
suffix of the input passed in. -/
def SuffixContract {O : Type} (p : ParserM O) : Prop :=
  (∀ input next o, p input = .ok (next, o) → List.IsSuffix next input) ∧
  (∀ input e, p input = .error e → List.IsSuffix e.input input)

/-- A parser only ever fails recoverably: every error it returns has a
non-`Failure` code. -/
def SoftErrors {O : Type} (p : ParserM O) : Prop :=
  ∀ input e, p input = .error e → e.isFailure = false

/-- CSV quote escaping of a field body: every `"` is doubled.  Wrapping the
result in `"` on both sides is the escaped encoding of the field. -/
def escape_quotes : List Char → List Char
  | [] => []
  | c :: rest =>
    if c = '"' then '"' :: '"' :: escape_quotes rest else c :: escape_quotes rest

/-! ## Helper lemmas -/

/-- A `Runs` trace determines the loop result: with enough fuel the loop
returns the hard terminal error itself, or succeeds with the collected
outputs and the terminal error's input as remainder. -/
theorem runs_fuel {O : Type} {p : ParserM O} {input : List Char} {outs : List O} {err : Error}
    (h : Runs p input outs err) :
    ∀ fuel : Nat, outs.length < fuel →
      zero_or_more_fuel p fuel input =
        some (if err.isFailure then .error err else .ok (err.input, outs)) := by
  induction h with
  | @stop inp e herr =>
    intro fuel hf
    cases fuel with
    | zero => omega
    | succ n =>
      simp only [zero_or_more_fuel, herr]
      cases hfail : e.isFailure <;> simp [hfail]
  | @step inp next o outs2 e hok hrun ih =>
    intro fuel hf
    cases fuel with
    | zero => omega
    | succ n =>
      have hlt : outs2.length < n := by simpa using Nat.lt_of_succ_lt_succ hf
      simp only [zero_or_more_fuel, hok, ih n hlt]
      cases hfail : e.isFailure <;> simp [hfail]

/-! ## Claims -/

/-- C1 counterexample: the claim is false as stated.  A primary parser that
fails with a hard `Failure` does not short-circuit `fallback_on`: the
fallback still runs and its success is returned (first two conjuncts).  And
when the primary fails recoverably with an error whose recorded input has
moved past the original input, the fallback is run from that recorded input,
not from the original input (last two conjuncts: the result consumes 'b'
only, not 'a'). -/
theorem C1_counterexample :
    (fallback_on (fun i => .error ⟨i, .Failure .SystemFailure⟩) any_char ['a'] =
      .ok ([], 'a')) ∧
    ((Except.ok (([] : List Char), 'a') : PResult Char) ≠
      .error ⟨['a'], .Failure .SystemFailure⟩) ∧
    (fallback_on (fun i => .error ⟨i.drop 1, .NoInput⟩) any_char ['a', 'b'] =
      .ok ([], 'b')) ∧
    ((Except.ok (([] : List Char), 'b') : PResult Char) ≠ .ok (['b'], 'a')) := by
  refine ⟨rfl, ?_, rfl, ?_⟩ <;> simp

/-- C1 (amended): whenever the primary parser fails — recoverably or with a
hard `Failure` alike — `fallback_on` runs the fallback parser from the input
recorded in the error and returns whatever the fallback produces. -/
theorem C1_fallback_runs_alt {O : Type} (primary alt : ParserM O) (input : List Char)
    (err : Error) (h : primary input = .error err) :
    fallback_on primary alt input = alt err.input := by
  unfold fallback_on
  rw [h]

/-- Witness for C1: instantiates the amended theorem at a concrete failing
primary parser and input. -/
theorem C1_fallback_runs_alt_witness :
    fallback_on (fun i => .error ⟨i, .NoInput⟩) any_char ['a'] =
      any_char (Error.mk ['a'] .NoInput).input :=
  C1_fallback_runs_alt (fun i => .error ⟨i, .NoInput⟩) any_char ['a']
    ⟨['a'], .NoInput⟩ rfl

/-- C2 counterexample: on `"a,b\nc\n"` the entry point does return the hard
`InvalidInput "more fields in this record"` failure, but its error input is
`"\nc\n"` — the line break that ends the first line, not the start of the
second line `"c\n"`. -/
theorem C2_counterexample :
    parse_string ("a,b\nc\n".toList) =
      .error ⟨"\nc\n".toList, .Failure (.InvalidInput "more fields in this record")⟩ ∧
    "\nc\n".toList ≠ "c\n".toList := by
  exact ⟨rfl, by decide⟩

/-- C2 (amended): parsing `"a,b\nc\n"` returns the hard failure
`Failure (InvalidInput "more fields in this record")` whose error input is
positioned at the line break preceding the second line (`"\nc\n"`), and in
particular does not return a successful one-record document. -/
theorem C2_arity_enforced :
    parse_string ("a,b\nc\n".toList) =
      .error ⟨'\n' :: "c\n".toList, .Failure (.InvalidInput "more fields in this record")⟩ :=
  rfl

/-- C5: the entry point succeeds on `"a,b\r\n"` and on `"a,b"` with the same
one-record document and empty remainder, and every success of the entry
point has empty remaining input. -/
theorem C5_entry_point :
    parse_string ("a,b\r\n".toList) = .ok ([], [[['a'], ['b']]]) ∧
    parse_string ("a,b".toList) = .ok ([], [[['a'], ['b']]]) ∧
    ∀ input rem_input d, parse_string input = .ok (rem_input, d) → rem_input = [] := by
  refine ⟨rfl, rfl, ?_⟩
  intro input rem_input d h
  unfold parse_string at h
  split at h
  · exact absurd h (by simp)
  · split at h
    · split at h
      · exact (congrArg Prod.fst ((Except.ok.injEq _ _).mp h)).symm
      · exact (congrArg Prod.fst ((Except.ok.injEq _ _).mp h)).symm
      · exact absurd h (by simp)
    · exact (congrArg Prod.fst ((Except.ok.injEq _ _).mp h)).symm

/-- Witness for C5: the universally quantified part applied at the concrete
success on `"a,b"`. -/
theorem C5_entry_point_witness : ([] : List Char) = [] :=
  C5_entry_point.2.2 ("a,b".toList) [] [[['a'], ['b']]] rfl

/-- C8: `line_break` consumes `"\n"`, consumes `"\r\n"` as one token, and on
any input starting with neither (a lone `"\r"` included) fails with the
recoverable `LineBreak` code and the untouched input. -/
theorem C8_line_break :
    (∀ rest : List Char, line_break ('\n' :: rest) = .ok (rest, ['\n'])) ∧
    (∀ rest : List Char, line_break ('\r' :: '\n' :: rest) = .ok (rest, ['\r', '\n'])) ∧
    (∀ input : List Char, input.take 1 ≠ ['\n'] → input.take 2 ≠ ['\r', '\n'] →
      line_break input = .error ⟨input, .LineBreak⟩ ∧
      (Error.mk input .LineBreak).isFailure = false) ∧
    line_break ['\r'] = .error ⟨['\r'], .LineBreak⟩ := by
  refine ⟨fun rest => rfl, fun rest => rfl, ?_, rfl⟩
  intro input h1 h2
  refine ⟨?_, rfl⟩
  unfold line_break
  split
  · simp_all
  · simp_all
  · rfl

/-- Witness for C8: the hypotheses of the third conjunct discharged at the
concrete input `['x']`. -/
theorem C8_line_break_witness :
    line_break ['x'] = .error ⟨['x'], .LineBreak⟩ ∧
    (Error.mk ['x'] .LineBreak).isFailure = false :=
  C8_line_break.2.2.1 ['x'] (by decide) (by decide)

/-- C9: `record` on the empty input fails with the recoverable `NoInput`
error (and hence does not succeed with a one-empty-field record). -/
theorem C9_record_empty :
    record ([] : List Char) = .error ⟨[], .NoInput⟩ ∧
    (Error.mk [] .NoInput).isFailure = false :=
  ⟨rfl, rfl⟩

/-- C3: if repeatedly applying `p` from `input` succeeds with outputs `outs`
and then fails with `err` (a `Runs` trace), then: when `err` is recoverable
the loop succeeds with exactly the collected outputs and the remaining input
positioned at the start of the failed attempt; when `err` is a hard
`Failure` the loop returns that failure, discarding the collected outputs.
The first two conjuncts state this for the loop at any sufficient fuel, the
last for `zero_or_more` itself. -/
theorem C3_zero_or_more_behavior {O : Type} (p : ParserM O) (input : List Char)
    (outs : List O) (err : Error) (h : Runs p input outs err) :
    (err.isFailure = false → ∀ fuel, outs.length < fuel →
      zero_or_more_fuel p fuel input = some (.ok (err.input, outs))) ∧
    (err.isFailure = true → ∀ fuel, outs.length < fuel →
      zero_or_more_fuel p fuel input = some (.error err)) ∧
    (outs.length ≤ input.length →
      zero_or_more p input =
        if err.isFailure then .error err else .ok (err.input, outs)) := by
  refine ⟨?_, ?_, ?_⟩
  · intro hrec fuel hf
    simpa [hrec] using runs_fuel h fuel hf
  · intro hard fuel hf
    simpa [hard] using runs_fuel h fuel hf
  · intro hle
    unfold zero_or_more
    rw [runs_fuel h (input.length + 1) (by omega)]

/-- Witness for C3: two successful repetitions of `char 'a'` followed by a
recoverable mismatch yield the collected outputs with the remainder at the
start of the failed attempt. -/
theorem C3_zero_or_more_behavior_witness :
    zero_or_more (char 'a') ['a', 'b'] = .ok (['b'], ['a']) := by
  have h : Runs (char 'a') ['a', 'b'] ['a'] ⟨['b'], .Char 'a'⟩ :=
    Runs.step rfl (Runs.stop rfl)
  simpa using
    (C3_zero_or_more_behavior (char 'a') ['a', 'b'] ['a'] ⟨['b'], .Char 'a'⟩ h).2.2
      (by decide)

/-- If `p` consumes at least one character on every success, the loop of
`zero_or_more` reaches its terminating error within `input.length + 1`
iterations. -/
theorem consuming_fuel_sufficient {O : Type} {p : ParserM O}
    (hp : ∀ input next o, p input = .ok (next, o) → next.length < input.length) :
    ∀ fuel input, input.length < fuel → (zero_or_more_fuel p fuel input).isSome := by
  intro fuel
  induction fuel with
  | zero => intro input h; omega
  | succ n ih =>
    intro input h
    unfold zero_or_more_fuel
    cases hres : p input with
    | error err => cases herr : err.isFailure <;> simp [herr]
    | ok v =>
      obtain ⟨next, o⟩ := v
      have hlt : next.length < n := by
        have := hp input next o hres
        omega
      obtain ⟨r, hr⟩ := Option.isSome_iff_exists.mp (ih next hlt)
      cases r with
      | error e => simp [hr]
      | ok w => cases w; simp [hr]

/-- C6: for every parser `p` that on every input either fails or succeeds
consuming at least one unit of input, the repetition loop of
`zero_or_more p` terminates on every input — the budget `input.length + 1`
reaches the terminating error, and `zero_or_more p` returns that result. -/
theorem C6_zero_or_more_terminates {O : Type} (p : ParserM O)
    (hp : ∀ input next o, p input = .ok (next, o) → next.length < input.length)
    (input : List Char) :
    ∃ r, zero_or_more_fuel p (input.length + 1) input = some r ∧
      zero_or_more p input = r := by
  obtain ⟨r, hr⟩ := Option.isSome_iff_exists.mp
    (consuming_fuel_sufficient hp (input.length + 1) input (by omega))
  refine ⟨r, hr, ?_⟩
  unfold zero_or_more
  rw [hr]

/-- Witness for C6: `any_char` consumes one character on every success, so
`zero_or_more any_char` terminates on `['a', 'b']`. -/
theorem C6_zero_or_more_terminates_witness :
    ∃ r, zero_or_more_fuel any_char (['a', 'b'].length + 1) ['a', 'b'] = some r ∧
      zero_or_more any_char ['a', 'b'] = r :=
  C6_zero_or_more_terminates any_char
    (fun input next o h => by
      cases input with
      | nil => simp [any_char] at h
      | cons c rest =>
        simp only [any_char, Except.ok.injEq, Prod.mk.injEq] at h
        rw [← h.1]
        simp)
    ['a', 'b']

/-! ## Recoverability and totality of the field parsers -/

/-- The `char` parser only fails recoverably (`Char` or the end-of-string code). -/
theorem char_soft (ch : Char) : SoftErrors (char ch) := by
  intro input e h
  cases input with
  | nil =>
    simp only [char, Except.error.injEq] at h
    rw [← h]
    rfl
  | cons c rest =>
    simp only [char] at h
    split at h
    · simp at h
    · rw [← (Except.error.injEq _ _).mp h]
      rfl

/-- The `any_char` parser only fails recoverably (the end-of-string code). -/
theorem any_char_soft : SoftErrors any_char := by
  intro input e h
  cases input with
  | nil =>
    simp only [any_char, Except.error.injEq] at h
    rw [← h]
    rfl
  | cons c rest => simp [any_char] at h

/-- Mapping preserves recoverability. -/
theorem pmap_soft {O1 O2 : Type} {p : ParserM O1} {f : O1 → O2} (hp : SoftErrors p) :
    SoftErrors (pmap p f) := by
  intro input e h
  unfold pmap at h
  cases hres : p input with
  | error e1 =>
    rw [hres] at h
    exact (Except.error.injEq _ _).mp h ▸ hp input e1 hres
  | ok v =>
    rw [hres] at h
    cases v
    simp at h

/-- Sequencing preserves recoverability: a left error is passed through and a
right error is re-wrapped keeping its code. -/
theorem pair_soft {O1 O2 : Type} {p : ParserM O1} {q : ParserM O2}
    (hp : SoftErrors p) (hq : SoftErrors q) : SoftErrors (pair p q) := by
  intro input e h
  unfold pair at h
  split at h
  · rename_i e1 heq
    exact (Except.error.injEq _ _).mp h ▸ hp input e1 heq
  · rename_i next l heq
    split at h
    · rename_i e2 heq2
      rw [← (Except.error.injEq _ _).mp h]
      exact hq next e2 heq2
    · simp at h

/-- Predicate filtering preserves recoverability: its own error is `Predicate`. -/
theorem iff_soft {O : Type} {p : ParserM O} {pred : O → Bool} (hp : SoftErrors p) :
    SoftErrors (iff p pred) := by
  intro input e h
  unfold iff at h
  split at h
  · rename_i e1 heq
    exact (Except.error.injEq _ _).mp h ▸ hp input e1 heq
  · split at h
    · simp at h
    · rw [← (Except.error.injEq _ _).mp h]
      rfl

/-- Fallback returns errors only from the fallback parser, so it is
recoverable whenever the fallback is. -/
theorem fallback_soft {O : Type} {p q : ParserM O} (hq : SoftErrors q) :
    SoftErrors (fallback_on p q) := by
  intro input e h
  unfold fallback_on at h
  cases hres : p input with
  | error e1 =>
    rw [hres] at h
    exact hq e1.input e h
  | ok v =>
    rw [hres] at h
    simp at h

/-- If `p` consumes on success and only fails recoverably, the
`zero_or_more` loop reaches a success within `input.length + 1`
iterations. -/
theorem soft_consuming_fuel_ok {O : Type} {p : ParserM O}
    (hp : ∀ input next o, p input = .ok (next, o) → next.length < input.length)
    (hsoft : SoftErrors p) :
    ∀ fuel input, input.length < fuel →
      ∃ rem outs, zero_or_more_fuel p fuel input = some (.ok (rem, outs)) := by
  intro fuel
  induction fuel with
  | zero => intro input h; omega
  | succ n ih =>
    intro input h
    unfold zero_or_more_fuel
    cases hres : p input with
    | error err =>
      refine ⟨err.input, [], ?_⟩
      simp [hsoft input err hres]
    | ok v =>
      obtain ⟨next, o⟩ := v
      have hlt : next.length < n := by
        have := hp input next o hres
        omega
      obtain ⟨rem, outs, hr⟩ := ih next hlt
      exact ⟨rem, o :: outs, by simp [hr]⟩

/-- Repetition of a consuming, recoverably-failing parser always
succeeds. -/
theorem zom_ok {O : Type} {p : ParserM O}
    (hp : ∀ input next o, p input = .ok (next, o) → next.length < input.length)
    (hsoft : SoftErrors p) (input : List Char) :
    ∃ rem outs, zero_or_more p input = .ok (rem, outs) := by
  obtain ⟨rem, outs, hr⟩ := soft_consuming_fuel_ok hp hsoft (input.length + 1) input (by omega)
  refine ⟨rem, outs, ?_⟩
  unfold zero_or_more
  rw [hr]

/-- The inner parser of `non_escaped` consumes one character on success. -/
theorem nesc_inner_consumes :
    ∀ input next o, nesc_inner input = .ok (next, o) → next.length < input.length := by
  intro input next o h
  cases input with
  | nil => simp [nesc_inner, iff, any_char] at h
  | cons c rest =>
    simp only [nesc_inner, iff, any_char] at h
    split at h
    · rw [← ((Prod.mk.injEq _ _ _ _).mp ((Except.ok.injEq _ _).mp h)).1]
      simp
    · simp at h

/-- The inner parser of `non_escaped` only fails recoverably. -/
theorem nesc_inner_soft : SoftErrors nesc_inner :=
  iff_soft any_char_soft

/-- The `non_escaped` parser succeeds on every input. -/
theorem non_escaped_ok (input : List Char) :
    ∃ rem outs, non_escaped input = .ok (rem, outs) := by
  obtain ⟨rem, outs, hr⟩ := zom_ok nesc_inner_consumes nesc_inner_soft input
  refine ⟨rem, outs, ?_⟩
  unfold non_escaped pmap
  rw [hr]

/-- The repeated inner parser of `escaped` consumes at least one character
on success (one for a plain character, two for a doubled quote). -/
theorem esc_inner_consumes :
    ∀ input next o, esc_inner input = .ok (next, o) → next.length < input.length := by
  intro input next o h
  cases input with
  | nil =>
    have hnil : esc_inner [] = .error ⟨[], END_OF_STRING⟩ := rfl
    rw [hnil] at h
    simp at h
  | cons c rest =>
    by_cases hc : c = '"'
    · subst hc
      cases rest with
      | nil =>
        have h1 : esc_inner ['"'] = .error ⟨['"'], END_OF_STRING⟩ := rfl
        rw [h1] at h
        simp at h
      | cons d rest2 =>
        by_cases hd : d = '"'
        · subst hd
          have h1 : esc_inner ('"' :: '"' :: rest2) = .ok (rest2, '"') := rfl
          rw [h1] at h
          rw [← ((Prod.mk.injEq _ _ _ _).mp ((Except.ok.injEq _ _).mp h)).1]
          simp only [List.length_cons]
          omega
        · have h1 : esc_inner ('"' :: d :: rest2) = .error ⟨'"' :: d :: rest2, .Char '"'⟩ := by
            have hb : (d = '"') = False := by simp [hd]
            simp [esc_inner, fallback_on, iff, any_char, left_from_pair, pmap, pair,
              dquote, char, hb]
          rw [h1] at h
          simp at h
    · have h1 : esc_inner (c :: rest) = .ok (rest, c) := by
        have hb : (c != '"') = true := by simp [hc]
        simp [esc_inner, fallback_on, iff, any_char, hb]
      rw [h1] at h
      rw [← ((Prod.mk.injEq _ _ _ _).mp ((Except.ok.injEq _ _).mp h)).1]
      simp

/-- The repeated inner parser of `escaped` only fails recoverably: its
errors come from the doubled-quote fallback, which re-wraps `dquote`
errors. -/
theorem esc_inner_soft : SoftErrors esc_inner :=
  fallback_soft (pmap_soft (pair_soft (char_soft '"') (char_soft '"')))

/-- The quote-body repetition of `escaped` always succeeds. -/
theorem zom_esc_inner_ok (input : List Char) :
    ∃ rem outs, zero_or_more esc_inner input = .ok (rem, outs) :=
  zom_ok esc_inner_consumes esc_inner_soft input

/-- The quote-body repetition of `escaped` never returns an error at all. -/
theorem zom_esc_inner_soft : SoftErrors (zero_or_more esc_inner) := by
  intro input e h
  obtain ⟨rem, outs, hok⟩ := zom_esc_inner_ok input
  rw [hok] at h
  simp at h

/-- Every error `escaped` can produce is recoverable. -/
theorem escaped_soft : SoftErrors escaped :=
  pmap_soft (pmap_soft (pair_soft (char_soft '"')
    (pmap_soft (pair_soft zom_esc_inner_soft (char_soft '"')))))

/-- The `field` parser succeeds on every input. -/
theorem field_ok (input : List Char) :
    ∃ rem_input out, field input = .ok (rem_input, out) := by
  unfold field fallback_on
  cases hres : escaped input with
  | ok v =>
    obtain ⟨rem, out⟩ := v
    exact ⟨rem, out, rfl⟩
  | error e =>
    obtain ⟨rem, outs, hne⟩ := non_escaped_ok e.input
    exact ⟨rem, outs, hne⟩

/-- C10: `field` is total over successes — it returns `Ok` on every input;
every error `escaped` can produce is recoverable (so the fallback to
`non_escaped` always runs); and on an input beginning with an unterminated
quote `field` succeeds consuming nothing and yielding the empty string. -/
theorem C10_field_total :
    (∀ input, ∃ rem_input out, field input = .ok (rem_input, out)) ∧
    (∀ input e, escaped input = .error e → e.isFailure = false) ∧
    field ("\"abc".toList) = .ok ("\"abc".toList, []) :=
  ⟨field_ok, escaped_soft, rfl⟩

/-- Witness for C10: the recoverability conjunct applied at the concrete
input `['x']`, on which `escaped` fails with the recoverable `Char '"'`. -/
theorem C10_field_total_witness : (Error.mk ['x'] (.Char '"')).isFailure = false :=
  C10_field_total.2.1 ['x'] ⟨['x'], .Char '"'⟩ rfl

/-! ## The escaped-field round trip -/

/-- Doubling quotes never shortens a string. -/
theorem escape_quotes_length (s : List Char) : s.length ≤ (escape_quotes s).length := by
  induction s with
  | nil => simp [escape_quotes]
  | cons c rest ih =>
    simp only [escape_quotes]
    split <;> simp only [List.length_cons] <;> omega

/-- The quote-body loop of `escaped`, run on an escaped body followed by the
closing quote, performs exactly one successful repetition per original
character and then stops recoverably at the closing quote. -/
theorem esc_inner_runs (s : List Char) :
    Runs esc_inner (escape_quotes s ++ ['"']) s ⟨['"'], END_OF_STRING⟩ := by
  induction s with
  | nil => exact Runs.stop rfl
  | cons c rest ih =>
    by_cases hc : c = '"'
    · subst hc
      simp only [escape_quotes, if_pos rfl, List.cons_append]
      exact Runs.step rfl ih
    · simp only [escape_quotes, if_neg hc, List.cons_append]
      refine Runs.step ?_ ih
      have hb : (c != '"') = true := by simp [hc]
      simp [esc_inner, fallback_on, iff, any_char, hb]

/-- The quote-body loop consumes exactly the escaped body, leaving the
closing quote, and decodes it back to the original string. -/
theorem zom_esc_inner_roundtrip (s : List Char) :
    zero_or_more esc_inner (escape_quotes s ++ ['"']) = .ok (['"'], s) := by
  have hlen : s.length < (escape_quotes s ++ ['"']).length + 1 := by
    have := escape_quotes_length s
    simp only [List.length_append, List.length_cons, List.length_nil]
    omega
  have h := runs_fuel (esc_inner_runs s) ((escape_quotes s ++ ['"']).length + 1) hlen
  unfold zero_or_more
  rw [h]
  rfl

/-- C7: the escaped-field parser round-trips quote escaping — for every
string `s`, parsing `'"' :: escape_quotes s ++ ['"']` with `field` yields
exactly `s` with nothing left over; in particular `field "\"ab\"\"cd\""`
yields `"ab\"cd"`. -/
theorem C7_escaped_roundtrip :
    (∀ s : List Char, field ('"' :: (escape_quotes s ++ ['"'])) = .ok ([], s)) ∧
    field ("\"ab\"\"cd\"".toList) = .ok ([], "ab\"cd".toList) := by
  refine ⟨?_, rfl⟩
  intro s
  have hz := zom_esc_inner_roundtrip s
  have hesc : escaped ('"' :: (escape_quotes s ++ ['"'])) = .ok ([], s) := by
    simp [escaped, pmap, right_from_pair, left_from_pair, pair, dquote, char, hz]
  unfold field fallback_on
  rw [hesc]

/-! ## The suffix invariant -/

/-- The `char` parser satisfies the suffix contract. -/
theorem suffix_char (ch : Char) : SuffixContract (char ch) := by
  constructor
  · intro input next o h
    unfold char at h
    split at h
    · simp at h
    · rename_i c rest
      split at h
      · rw [← ((Prod.mk.injEq _ _ _ _).mp ((Except.ok.injEq _ _).mp h)).1]
        exact List.suffix_cons c rest
      · simp at h
  · intro input e h
    unfold char at h
    split at h
    · rw [← (Except.error.injEq _ _).mp h]
    · split at h
      · simp at h
      · rw [← (Except.error.injEq _ _).mp h]

/-- The `any_char` parser satisfies the suffix contract. -/
theorem suffix_any_char : SuffixContract any_char := by
  constructor
  · intro input next o h
    unfold any_char at h
    split at h
    · simp at h
    · rename_i c rest
      rw [← ((Prod.mk.injEq _ _ _ _).mp ((Except.ok.injEq _ _).mp h)).1]
      exact List.suffix_cons c rest
  · intro input e h
    unfold any_char at h
    split at h
    · rw [← (Except.error.injEq _ _).mp h]
    · simp at h

/-- The `line_break` parser satisfies the suffix contract. -/
theorem suffix_line_break : SuffixContract line_break := by
  constructor
  · intro input next o h
    unfold line_break at h
    split at h
    · rw [← ((Prod.mk.injEq _ _ _ _).mp ((Except.ok.injEq _ _).mp h)).1]
      exact List.suffix_cons _ _
    · rw [← ((Prod.mk.injEq _ _ _ _).mp ((Except.ok.injEq _ _).mp h)).1]
      exact (List.suffix_cons _ _).trans (List.suffix_cons _ _)
    · simp at h
  · intro input e h
    unfold line_break at h
    split at h
    · simp at h
    · simp at h
    · rw [← (Except.error.injEq _ _).mp h]

/-- Mapping preserves the suffix contract. -/
theorem suffix_pmap {O1 O2 : Type} {p : ParserM O1} (f : O1 → O2) (hp : SuffixContract p) :
    SuffixContract (pmap p f) := by
  constructor
  · intro input next o h
    unfold pmap at h
    split at h
    · simp at h
    · rename_i next1 r1 heq
      rw [← ((Prod.mk.injEq _ _ _ _).mp ((Except.ok.injEq _ _).mp h)).1]
      exact hp.1 input next1 r1 heq
  · intro input e h
    unfold pmap at h
    split at h
    · rename_i e1 heq
      rw [← (Except.error.injEq _ _).mp h]
      exact hp.2 input e1 heq
    · simp at h

/-- Binding preserves the suffix contract. -/
theorem suffix_and_then_map {O1 O2 : Type} {p : ParserM O1} {f : O1 → ParserM O2}
    (hp : SuffixContract p) (hf : ∀ o, SuffixContract (f o)) :
    SuffixContract (and_then_map p f) := by
  constructor
  · intro input next o h
    unfold and_then_map at h
    split at h
    · rename_i next1 r1 heq
      exact ((hf r1).1 next1 next o h).trans (hp.1 input next1 r1 heq)
    · simp at h
  · intro input e h
    unfold and_then_map at h
    split at h
    · rename_i next1 r1 heq
      exact ((hf r1).2 next1 e h).trans (hp.1 input next1 r1 heq)
    · rename_i e1 heq
      rw [← (Except.error.injEq _ _).mp h]
      exact hp.2 input e1 heq

/-- Fallback preserves the suffix contract: the fallback runs on the
primary error's input, which is itself a suffix. -/
theorem suffix_fallback {O : Type} {p q : ParserM O} (hp : SuffixContract p)
    (hq : SuffixContract q) : SuffixContract (fallback_on p q) := by
  constructor
  · intro input next o h
    unfold fallback_on at h
    split at h
    · rename_i r heq
      rw [(Except.ok.injEq _ _).mp h] at heq
      exact hp.1 input next o heq
    · rename_i err heq
      exact (hq.1 err.input next o h).trans (hp.2 input err heq)
  · intro input e h
    unfold fallback_on at h
    split at h
    · simp at h
    · rename_i err heq
      exact (hq.2 err.input e h).trans (hp.2 input err heq)

/-- Predicate filtering preserves the suffix contract: its own error carries the original
input. -/
theorem suffix_iff {O : Type} {p : ParserM O} (pred : O → Bool) (hp : SuffixContract p) :
    SuffixContract (iff p pred) := by
  constructor
  · intro input next o h
    unfold iff at h
    split at h
    · simp at h
    · rename_i next1 r1 heq
      split at h
      · rw [(Except.ok.injEq _ _).mp h] at heq
        exact hp.1 input next o heq
      · simp at h
  · intro input e h
    unfold iff at h
    split at h
    · rename_i e1 heq
      rw [← (Except.error.injEq _ _).mp h]
      exact hp.2 input e1 heq
    · split at h
      · simp at h
      · rw [← (Except.error.injEq _ _).mp h]

/-- Strict predicate filtering preserves the suffix contract. -/
theorem suffix_iff_or_invalid {O : Type} {p : ParserM O} (pred : O → Bool)
    (hp : SuffixContract p) : SuffixContract (iff_or_invalid p pred) := by
  constructor
  · intro input next o h
    unfold iff_or_invalid at h
    split at h
    · simp at h
    · rename_i next1 r1 heq
      split at h
      · rw [(Except.ok.injEq _ _).mp h] at heq
        exact hp.1 input next o heq
      · simp at h
  · intro input e h
    unfold iff_or_invalid at h
    split at h
    · rename_i e1 heq
      rw [← (Except.error.injEq _ _).mp h]
      exact hp.2 input e1 heq
    · split at h
      · simp at h
      · rw [← (Except.error.injEq _ _).mp h]

/-- Sequencing preserves the suffix contract: a right error is re-wrapped with
the original input. -/
theorem suffix_pair {O1 O2 : Type} {p : ParserM O1} {q : ParserM O2}
    (hp : SuffixContract p) (hq : SuffixContract q) : SuffixContract (pair p q) := by
  constructor
  · intro input next o h
    unfold pair at h
    split at h
    · simp at h
    · rename_i next1 l heq
      split at h
      · simp at h
      · rename_i rem r heq2
        rw [← ((Prod.mk.injEq _ _ _ _).mp ((Except.ok.injEq _ _).mp h)).1]
        exact (hq.1 next1 rem r heq2).trans (hp.1 input next1 l heq)
  · intro input e h
    unfold pair at h
    split at h
    · rename_i e1 heq
      rw [← (Except.error.injEq _ _).mp h]
      exact hp.2 input e1 heq
    · rename_i next1 l heq
      split at h
      · rw [← (Except.error.injEq _ _).mp h]
      · simp at h

/-- The loop of `zero_or_more` preserves the suffix contract at any fuel. -/
theorem zom_fuel_suffix {O : Type} {p : ParserM O} (hp : SuffixContract p) :
    ∀ fuel input r, zero_or_more_fuel p fuel input = some r →
      (∀ next outs, r = .ok (next, outs) → List.IsSuffix next input) ∧
      (∀ e, r = .error e → List.IsSuffix e.input input) := by
  intro fuel
  induction fuel with
  | zero => intro input r h; simp [zero_or_more_fuel] at h
  | succ n ih =>
    intro input r h
    simp only [zero_or_more_fuel] at h
    split at h
    · rename_i err heq
      split at h
      · have h1 : r = .error err := ((Option.some.injEq _ _).mp h).symm
        refine ⟨?_, ?_⟩
        · intro next outs hr
          rw [h1] at hr
          simp at hr
        · intro e hr
          rw [h1] at hr
          exact (Except.error.injEq _ _).mp hr ▸ hp.2 input err heq
      · have h1 : r = .ok (err.input, []) := ((Option.some.injEq _ _).mp h).symm
        refine ⟨?_, ?_⟩
        · intro next outs hr
          rw [h1] at hr
          rw [← ((Prod.mk.injEq _ _ _ _).mp ((Except.ok.injEq _ _).mp hr)).1]
          exact hp.2 input err heq
        · intro e hr
          rw [h1] at hr
          simp at hr
    · rename_i next1 o heq
      have hnext : List.IsSuffix next1 input := hp.1 input next1 o heq
      split at h
      · simp at h
      · rename_i err heq2
        have hrec := (ih next1 (.error err) heq2).2 err rfl
        have h1 : r = .error err := ((Option.some.injEq _ _).mp h).symm
        refine ⟨?_, ?_⟩
        · intro next outs hr
          rw [h1] at hr
          simp at hr
        · intro e hr
          rw [h1] at hr
          exact (Except.error.injEq _ _).mp hr ▸ hrec.trans hnext
      · rename_i rem outs1 heq2
        have hrec := (ih next1 (.ok (rem, outs1)) heq2).1 rem outs1 rfl
        have h1 : r = .ok (rem, o :: outs1) := ((Option.some.injEq _ _).mp h).symm
        refine ⟨?_, ?_⟩
        · intro next outs hr
          rw [h1] at hr
          rw [← ((Prod.mk.injEq _ _ _ _).mp ((Except.ok.injEq _ _).mp hr)).1]
          exact hrec.trans hnext
        · intro e hr
          rw [h1] at hr
          simp at hr

/-- Repetition preserves the suffix contract. -/
theorem suffix_zom {O : Type} {p : ParserM O} (hp : SuffixContract p) :
    SuffixContract (zero_or_more p) := by
  constructor
  · intro input next o h
    unfold zero_or_more at h
    split at h
    · rename_i r heq
      exact (zom_fuel_suffix hp _ input r heq).1 next o h
    · simp at h
  · intro input e h
    unfold zero_or_more at h
    split at h
    · rename_i r heq
      exact (zom_fuel_suffix hp _ input r heq).2 e h
    · rw [← (Except.error.injEq _ _).mp h]

/-- Every parser built from the primitives and combinators satisfies the
suffix contract. -/
theorem built_suffix : ∀ (O : Type) (p : ParserM O), Built O p → SuffixContract p := by
  intro O p hb
  induction hb with
  | charB ch => exact suffix_char ch
  | anyCharB => exact suffix_any_char
  | lineBreakB => exact suffix_line_break
  | pmapB f hb ih => exact suffix_pmap f ih
  | andThenMapB hb1 hb2 ih1 ih2 => exact suffix_and_then_map ih1 ih2
  | fallbackB hb1 hb2 ih1 ih2 => exact suffix_fallback ih1 ih2
  | iffB pred hb ih => exact suffix_iff pred ih
  | iffOrInvalidB pred hb ih => exact suffix_iff_or_invalid pred ih
  | pairB hb1 hb2 ih1 ih2 => exact suffix_pair ih1 ih2
  | zeroOrMoreB hb ih => exact suffix_zom ih

/-- The grammar-layer `field` parser is built from the primitives and
combinators. -/
theorem built_field : Built (List Char) field :=
  Built.fallbackB
    (Built.pmapB _ (Built.pmapB _ (Built.pairB (Built.charB '"')
      (Built.pmapB _ (Built.pairB
        (Built.zeroOrMoreB
          (Built.fallbackB (Built.iffB _ Built.anyCharB)
            (Built.pmapB _ (Built.pairB (Built.charB '"') (Built.charB '"')))))
        (Built.charB '"'))))))
    (Built.pmapB _ (Built.zeroOrMoreB (Built.iffB _ Built.anyCharB)))

/-- The `field` parser satisfies the suffix contract. -/
theorem suffix_field : SuffixContract field :=
  built_suffix _ field built_field

/-- The `(comma field)*` tail of `record` satisfies the suffix contract. -/
theorem suffix_rest_fields : SuffixContract (zero_or_more (right_from_pair comma field)) :=
  suffix_zom (suffix_pmap _ (suffix_pair (suffix_char ',') suffix_field))

/-- The `record` parser satisfies the suffix contract. -/
theorem suffix_record : SuffixContract record := by
  constructor
  · intro input next o h
    unfold record at h
    split at h
    · split at h
      · simp at h
      · rename_i next1 ff heq
        split at h
        · simp at h
        · rename_i rem ofs heq2
          rw [← ((Prod.mk.injEq _ _ _ _).mp ((Except.ok.injEq _ _).mp h)).1]
          exact (suffix_rest_fields.1 next1 rem ofs heq2).trans (suffix_field.1 input next1 ff heq)
    · simp at h
  · intro input e h
    unfold record at h
    split at h
    · split at h
      · rename_i e1 heq
        rw [← (Except.error.injEq _ _).mp h]
        exact suffix_field.2 input e1 heq
      · rename_i next1 ff heq
        split at h
        · rename_i e2 heq2
          rw [← (Except.error.injEq _ _).mp h]
          exact (suffix_rest_fields.2 next1 e2 heq2).trans (suffix_field.1 input next1 ff heq)
        · simp at h
    · rw [← (Except.error.injEq _ _).mp h]

/-- The record-sequence combinator inside `parse_string` satisfies the
suffix contract. -/
theorem suffix_records_inner : SuffixContract (and_then_map record (fun first_record =>
    pmap
      (zero_or_more (right_from_pair line_break
        (iff_or_invalid record (fun r => r.length == first_record.length))))
      (fun other_records => first_record :: other_records))) :=
  suffix_and_then_map suffix_record (fun _first_record =>
    suffix_pmap _ (suffix_zom (suffix_pmap _ (suffix_pair suffix_line_break
      (suffix_iff_or_invalid _ suffix_record)))))

/-- The record phase of `parse_string` satisfies the suffix contract: the
error-relabelling step keeps the error's input. -/
theorem suffix_parse_string_records : SuffixContract parse_string_records := by
  constructor
  · intro input next o h
    unfold parse_string_records at h
    split at h
    · simp at h
    · exact suffix_records_inner.1 input next o h
  · intro input e h
    unfold parse_string_records at h
    split at h
    · rename_i einput a heq
      rw [← (Except.error.injEq _ _).mp h]
      exact suffix_records_inner.2 input ⟨einput, .Failure (.InvalidInput a)⟩ heq
    · exact suffix_records_inner.2 input e h

/-- The `parse_string` parser satisfies the suffix contract. -/
theorem suffix_parse_string : SuffixContract parse_string := by
  constructor
  · intro input next o h
    unfold parse_string at h
    split at h
    · simp at h
    · split at h
      · split at h
        · rw [← ((Prod.mk.injEq _ _ _ _).mp ((Except.ok.injEq _ _).mp h)).1]
          exact List.nil_suffix
        · rw [← ((Prod.mk.injEq _ _ _ _).mp ((Except.ok.injEq _ _).mp h)).1]
          exact List.nil_suffix
        · simp at h
      · rw [← ((Prod.mk.injEq _ _ _ _).mp ((Except.ok.injEq _ _).mp h)).1]
        exact List.nil_suffix
  · intro input e h
    unfold parse_string at h
    split at h
    · rename_i e1 heq
      rw [← (Except.error.injEq _ _).mp h]
      exact suffix_parse_string_records.2 input e1 heq
    · rename_i trailing records heq
      split at h
      · split at h
        · simp at h
        · simp at h
        · rw [← (Except.error.injEq _ _).mp h]
          exact suffix_parse_string_records.1 input trailing records heq
      · simp at h

/-- C4: every parser built from the primitives and combinators of the
library — and likewise the grammar-layer `record` and entry point
`parse_string` — returns, on success, a remaining input that is a suffix of
(or equal to) the input passed in, and, on failure, an error whose `input`
field is a suffix of (or equal to) the input passed in. -/
theorem C4_suffix_invariant :
    (∀ (O : Type) (p : ParserM O), Built O p → SuffixContract p) ∧
    SuffixContract record ∧ SuffixContract parse_string :=
  ⟨built_suffix, suffix_record, suffix_parse_string⟩

/-- Witness for C4: the contract applied to `any_char` on `['a', 'b']`. -/
theorem C4_suffix_invariant_witness : List.IsSuffix ['b'] ['a', 'b'] :=
  (C4_suffix_invariant.1 Char any_char Built.anyCharB).1 ['a', 'b'] ['b'] 'a' rfl

end Libparse
